import Mathlib

/-!
Verification of the block-watcher ingestion core against its design notes.

The development shallowly embeds the TypeScript sources:
  * the persisted block-header store backed by Prisma `createMany` with
    `skipDuplicates` over the unique indexes `(chainId, number)` and
    `(chainId, hash)` (`EvmBlocksService.upsertBlock`);
  * the gap-detection query `EvmBlocksService.findMissingFullRange`;
  * the two scheduler loops of `EvmWatcherProvider` (`handleCron` head tick
    and `scanTipWindows` gap scan) with their per-chain try/catch;
  * the read controller `EvmBlocksController` with `ParseIntPipe` parameter
    parsing and the `toEvmBlockDto` serializer;
  * the `ViemRpcService` lazy client cache with `viemChainById`;
  * the `MetricsService.normalizeRoute` label normalizer.

The store is a list of rows in insertion order; Prisma/Postgres semantics of
`createMany ... ON CONFLICT DO NOTHING` are modelled row by row, a later row
of the batch also conflicting with rows inserted earlier in the same batch.
JavaScript `Number(...)` coercion of a bigint is modelled by rounding to the
nearest 53-bit-significand float (`float64Round`), and JS bigint `toString()`
by `natToDecimal`.
-/

/-- A persisted block-header row: `model EvmBlock` without the surrogate `id`.
Heights and timestamps are the non-negative integers carried by Prisma
bigints. -/
structure EvmBlock where
  chainId : Nat
  number : Nat
  hash : String
  parentHash : String
  timestamp : Nat
deriving DecidableEq, Repr

/-- One row conflicts with an insert candidate when they agree on
`(chainId, number)` or on `(chainId, hash)` — the two unique indexes
`uq_evm_chain_number` and `uq_evm_chain_hash`. -/
def conflictsWith (r b : EvmBlock) : Bool :=
  r.chainId == b.chainId && (r.number == b.number || r.hash == b.hash)

/-- A candidate is skipped when some stored row conflicts with it. -/
def hasConflict (s : List EvmBlock) (b : EvmBlock) : Bool :=
  s.any (fun r => conflictsWith r b)

/-- Prisma `createMany` with `skipDuplicates: true`: the batch is processed in
order, each row inserted unless it conflicts with the store so far (earlier
batch rows included); returns the new store and the insert count. -/
def createMany : List EvmBlock → List EvmBlock → List EvmBlock × Nat
  | s, [] => (s, 0)
  | s, b :: bs =>
    if hasConflict s b then createMany s bs
    else
      let r := createMany (s ++ [b]) bs
      (r.1, r.2 + 1)

/-- `EvmBlocksService.upsertBlock` (batch form, the `upsertBlocks` of the
tests): `prisma.evmBlock.createMany(data, skipDuplicates true)`. -/
def upsertBlocks (s : List EvmBlock) (input : List EvmBlock) : List EvmBlock × Nat :=
  createMany s input

/-- The rows of one chain, in store order: the `where: (chainId)` filter on
every read (invariant I3). -/
def chainRows (s : List EvmBlock) (c : Nat) : List EvmBlock :=
  s.filter (fun r => r.chainId == c)

/-- `EvmBlocksService.byNumber`: `findFirst` with `where` on chainId and
number. -/
def byNumber (s : List EvmBlock) (c n : Nat) : Option EvmBlock :=
  ((chainRows s c).filter (fun r => r.number == n)).head?

/-- The later of two rows by height (ties keep the first, as a stable
descending order would). -/
def pickLater (a b : EvmBlock) : EvmBlock :=
  if a.number < b.number then b else a

/-- `EvmBlocksService.getLatest`: `findFirst` with `where` on chainId and
`orderBy number desc` — the stored row of maximal height. -/
def getLatest (s : List EvmBlock) (c : Nat) : Option EvmBlock :=
  (chainRows s c).foldl
    (fun acc r =>
      match acc with
      | none => some r
      | some m => some (pickLater m r))
    none

/-- A sequence of batch upserts applied to the store. -/
def applyBatches (s : List EvmBlock) (bs : List (List EvmBlock)) : List EvmBlock :=
  bs.foldl (fun st b => (upsertBlocks st b).1) s

/-- The stored heights of one chain, in store order. -/
def chainNumbers (s : List EvmBlock) (c : Nat) : List Nat :=
  (chainRows s c).map (fun r => r.number)

/-- The stored heights of one chain in ascending order: the
`ORDER BY number` scan of the gap query. The unique index
`uq_evm_chain_number` makes stored heights distinct, which `dedup`
mirrors at the model level. -/
def sortedHeights (s : List EvmBlock) (c : Nat) : List Nat :=
  List.insertionSort (· ≤ ·) (chainNumbers s c).dedup

/-- The consecutive heights from `a` to `b` inclusive (empty when `b < a`):
the expansion of one missing range. -/
def rangeHeights (a b : Nat) : List Nat :=
  List.range' a (b + 1 - a)

/-- The gap ranges of the window query: for each adjacent pair of stored
heights with `next > cur + 1`, the run `(cur + 1, next - 1)` of missing
heights. -/
def gapRanges : List Nat → List (Nat × Nat)
  | a :: b :: rest =>
    if a + 1 < b then (a + 1, b - 1) :: gapRanges (b :: rest)
    else gapRanges (b :: rest)
  | _ => []

/-- All missing heights, gaps concatenated in ascending order. -/
def gapHeights (hs : List Nat) : List Nat :=
  (gapRanges hs).flatMap (fun p => rangeHeights p.1 p.2)

/-- `EvmBlocksService.findMissingFullRange`: `first`/`last` are the ascending
and descending `findFirst` heights; the raw query returns the gap ranges
(`LIMIT 10`), and the JS loop flattens them, pushing heights while fewer than
`limit = 10` have been collected. -/
def findMissingFullRange (s : List EvmBlock) (c : Nat) : List Nat :=
  match (sortedHeights s c).head?, (sortedHeights s c).getLast? with
  | some fromH, some toH =>
    if toH < fromH then []
    else
      (((gapRanges (sortedHeights s c)).take 10).flatMap
        (fun p => rangeHeights p.1 p.2)).take 10
  | _, _ => []

/-- Modelled from the spec, for comparison with `findMissingFullRange`: the
ascending enumeration of every height strictly inside `(first, last)` that is
not stored (U4's "the number of missing heights in `(first, last)`"). -/
def specInteriorMissing (hs : List Nat) : List Nat :=
  match hs.head?, hs.getLast? with
  | some f, some l => (rangeHeights (f + 1) (l - 1)).filter (fun n => decide (n ∉ hs))
  | _, _ => []

/-- Stored islands 3000..3010, 3050..3060, 3100..3110 on chain 99: the
bounded-gap-output scenario of §8. Gap detection reads only `chainId` and
`number`. -/
def islandBlocks (c a b : Nat) : List EvmBlock :=
  (rangeHeights a b).map (fun n =>
    { chainId := c, number := n,
      hash := String.mk ['0', 'x', 'h', Char.ofNat n],
      parentHash := String.mk ['0', 'x', 'p', Char.ofNat n],
      timestamp := 1700000000 })

/-- The pre-seeded store of the bounded-gap-output scenario. -/
def islandsState : List EvmBlock :=
  islandBlocks 99 3000 3010 ++ islandBlocks 99 3050 3060 ++ islandBlocks 99 3100 3110

/-- A block header as returned by the RPC gateway (`getBlock`): bigint
`number` and `timestamp`, hex-string hashes. -/
structure RpcBlock where
  number : Nat
  hash : String
  parentHash : String
  timestamp : Nat
deriving DecidableEq, Repr

/-- The `RpcService` read surface consumed by the watcher: `getHeadNumber`
and `getBlockByNumber`, each either resolving or rejecting. -/
structure RpcSpec where
  headNumber : Nat → Except String Nat
  blockByNumber : Nat → Nat → Except String RpcBlock

/-- The base-2 logarithm with an explicit fuel bound (`fuel ≥ log2 n`
suffices; `fuel = n` always does): kept structural so that concrete values
evaluate inside the kernel. -/
def log2Fuel : Nat → Nat → Nat
  | 0, _ => 0
  | fuel + 1, n => if n < 2 then 0 else log2Fuel fuel (n / 2) + 1

/-- JavaScript `Number(...)` applied to a non-negative bigint: exact below
`2^53`, otherwise rounded to the nearest float with a 53-bit significand,
ties to even. -/
def float64Round (n : Nat) : Nat :=
  if n ≤ 2 ^ 53 then n
  else
    let e := log2Fuel n n - 52
    let q := n / 2 ^ e
    let r := n % 2 ^ e
    let half := 2 ^ (e - 1)
    let q2 := if half < r || (r == half && q % 2 == 1) then q + 1 else q
    q2 * 2 ^ e

/-- The insert record built by the watcher from an RPC block: chainId plus
`number`, `hash`, `parentHash` and `Number(b.timestamp)`. -/
def tickRow (c : Nat) (b : RpcBlock) : EvmBlock :=
  { chainId := c, number := b.number, hash := b.hash, parentHash := b.parentHash,
    timestamp := float64Round b.timestamp }

/-- `EvmWatcherProvider.tick`: fetch the head number, fetch that block, and
upsert the single mapped row; any step's rejection aborts the chain's tick. -/
def tick (rpc : RpcSpec) (st : List EvmBlock) (c : Nat) : Except String (List EvmBlock) :=
  match rpc.headNumber c with
  | .error e => .error e
  | .ok h =>
    match rpc.blockByNumber c h with
    | .error e => .error e
    | .ok b => .ok (upsertBlocks st [tickRow c b]).1

/-- One iteration of the per-chain loop: the chain's work unit runs inside
try/catch — on rejection the error is logged (recorded here with its chain
id) and the loop continues with the previous store state. -/
def chainStep (act : List EvmBlock → Nat → Except String (List EvmBlock))
    (acc : List EvmBlock × List (Nat × String)) (c : Nat) :
    List EvmBlock × List (Nat × String) :=
  match act acc.1 c with
  | .ok st2 => (st2, acc.2)
  | .error e => (acc.1, acc.2 ++ [(c, e)])

/-- The per-chain loop shared by `handleCron` and `scanTipWindows`. -/
def chainLoop (act : List EvmBlock → Nat → Except String (List EvmBlock))
    (chains : List Nat) (st : List EvmBlock) : List EvmBlock × List (Nat × String) :=
  chains.foldl (chainStep act) (st, [])

/-- The state component of the per-chain loop. -/
def chainLoopState (act : List EvmBlock → Nat → Except String (List EvmBlock))
    (chains : List Nat) (st : List EvmBlock) : List EvmBlock :=
  chains.foldl
    (fun st1 c =>
      match act st1 c with
      | .ok st2 => st2
      | .error _ => st1)
    st

/-- `EvmWatcherProvider.handleCron` (the 5-second head tick): every
configured chain gets a tick, try/catch per chain. -/
def handleCron (rpc : RpcSpec) (chains : List Nat) (st : List EvmBlock) :
    List EvmBlock × List (Nat × String) :=
  chainLoop (tick rpc) chains st

/-- `Promise.all` over the per-height block requests: the collected results,
or the first rejection. -/
def collectExcept (f : Nat → Except String RpcBlock) : List Nat → Except String (List RpcBlock)
  | [] => .ok []
  | n :: ns =>
    match f n with
    | .error e => .error e
    | .ok b =>
      match collectExcept f ns with
      | .error e => .error e
      | .ok bs => .ok (b :: bs)

/-- `EvmWatcherProvider.scanClientTip`: skip when the chain has no stored
blocks or no missing heights; otherwise fetch every missing height and
upsert the mapped batch — a rejection of any request aborts the scan for
this chain before any upsert. -/
def scanClientTip (rpc : RpcSpec) (st : List EvmBlock) (c : Nat) :
    Except String (List EvmBlock) :=
  match getLatest st c with
  | none => .ok st
  | some _ =>
    if findMissingFullRange st c = [] then .ok st
    else
      match collectExcept (fun n => rpc.blockByNumber c n) (findMissingFullRange st c) with
      | .error e => .error e
      | .ok blocks => .ok (upsertBlocks st (blocks.map (fun b => tickRow c b))).1

/-- `EvmWatcherProvider.scanTipWindows` (the 60-second gap scan): every
configured chain gets a scan, try/catch per chain. -/
def scanTipWindows (rpc : RpcSpec) (chains : List Nat) (st : List EvmBlock) :
    List EvmBlock × List (Nat × String) :=
  chainLoop (scanClientTip rpc) chains st

/-- The projection of one chain's gap-scan outcome, computed in isolation:
the chain's rows after its own scan of the start state (unchanged when the
scan rejects). -/
def scanChainOutcome (rpc : RpcSpec) (st : List EvmBlock) (c : Nat) : List EvmBlock :=
  match scanClientTip rpc st c with
  | .ok s2 => chainRows s2 c
  | .error _ => chainRows st c

/-- The RPC-failure-isolation scenario of §8: chain 2 always rejects with
RpcUnavailable, every other chain serves head `1000 * c` with a valid
header. -/
def rpcScenario : RpcSpec where
  headNumber := fun c =>
    if c = 2 then Except.error "RpcUnavailable" else Except.ok (1000 * c)
  blockByNumber := fun c h =>
    if c = 2 then Except.error "RpcUnavailable"
    else Except.ok { number := h, hash := "0xhead", parentHash := "0xparent",
                     timestamp := 1700000000 }

/-- A gap-scan scenario: chain 2 has stored islands 2000..2005 and
2010..2015, and every block request rejects. -/
def scanFailRpc : RpcSpec where
  headNumber := fun _ => Except.error "RpcUnavailable"
  blockByNumber := fun _ _ => Except.error "Network timeout"

/-- The chain-2 store of the gap-scan failure scenario. -/
def scanFailState : List EvmBlock :=
  islandBlocks 2 2000 2005 ++ islandBlocks 2 2010 2015

/-- A viem chain descriptor as far as the gateway consults it: its id and
human-readable name. -/
structure ChainDesc where
  id : Nat
  name : String
deriving DecidableEq, Repr

/-- The `mainnet` descriptor from viem/chains. -/
def mainnet : ChainDesc := ⟨1, "Ethereum"⟩

/-- The `optimism` descriptor from viem/chains. -/
def optimism : ChainDesc := ⟨10, "OP Mainnet"⟩

/-- The `polygon` descriptor from viem/chains. -/
def polygon : ChainDesc := ⟨137, "Polygon"⟩

/-- The `arbitrum` descriptor from viem/chains. -/
def arbitrum : ChainDesc := ⟨42161, "Arbitrum One"⟩

/-- The `base` descriptor from viem/chains. -/
def base : ChainDesc := ⟨8453, "Base"⟩

/-- The `sepolia` descriptor from viem/chains. -/
def sepolia : ChainDesc := ⟨11155111, "Sepolia"⟩

/-- `viemChainById` of `ViemRpcService`: the six known chain ids map to their
descriptors, and the default case of the switch returns `mainnet`. -/
def viemChainById (id : Nat) : ChainDesc :=
  if id = 1 then mainnet
  else if id = 10 then optimism
  else if id = 137 then polygon
  else if id = 42161 then arbitrum
  else if id = 8453 then base
  else if id = 11155111 then sepolia
  else mainnet

/-- A `createPublicClient` result as the gateway holds it: the chain
descriptor and the transport URL passed to `http(url)`. -/
structure ViemClient where
  chain : ChainDesc
  url : String
deriving DecidableEq, Repr

/-- The environment configuration consulted by the gateway:
`RPC_ETH_MAINNET_URL` and `RPC_CHAIN_<N>_URL`, each defaulting to the empty
string. -/
structure RpcConfig where
  mainnetUrl : String
  chainUrl : Nat → String

/-- The constructor of `ViemRpcService`: the client map starts with the
mainnet client for chain 1. -/
def initClients (cfg : RpcConfig) : List (Nat × ViemClient) :=
  [(1, ⟨viemChainById 1, cfg.mainnetUrl⟩)]

/-- `ViemRpcService.getClient`: return the cached client, or lazily create
one from `viemChainById(chainId)` and `RPC_CHAIN_<chainId>_URL` and cache
it. No error is ever raised. -/
def getClient (cfg : RpcConfig) (clients : List (Nat × ViemClient)) (chainId : Nat) :
    ViemClient × List (Nat × ViemClient) :=
  match clients.lookup chainId with
  | some cl => (cl, clients)
  | none =>
    ((⟨viemChainById chainId, cfg.chainUrl chainId⟩ : ViemClient),
      clients ++ [(chainId, ⟨viemChainById chainId, cfg.chainUrl chainId⟩)])

/-- `ViemRpcService.getChainName`: the (possibly lazily created) client's
chain name. -/
def getChainName (cfg : RpcConfig) (clients : List (Nat × ViemClient)) (chainId : Nat) :
    String :=
  (getClient cfg clients chainId).1.chain.name

/-- A configuration in which every `RPC_CHAIN_<N>_URL` is empty. -/
def emptyCfg : RpcConfig := ⟨"", fun _ => ""⟩

/-- A decimal digit character. -/
def isDigitChar (c : Char) : Bool := '0' ≤ c && c ≤ '9'

/-- The decimal digits of `n` prepended to `acc`, with an explicit fuel bound
(`fuel ≥` the digit count suffices; `fuel = n + 1` always does): the
structural model of JS bigint `toString()`. -/
def natToDecimalFuel : Nat → Nat → List Char → List Char
  | 0, _, acc => acc
  | fuel + 1, n, acc =>
    let d := Char.ofNat (48 + n % 10)
    if n < 10 then d :: acc
    else natToDecimalFuel fuel (n / 10) (d :: acc)

/-- JS bigint `toString()`: the decimal rendering of `n`. -/
def natToDecimal (n : Nat) : List Char :=
  natToDecimalFuel (n + 1) n []

/-- The numeric value of a decimal digit string (most significant first). -/
def digitsToNat (l : List Char) : Nat :=
  l.foldl (fun a c => a * 10 + (c.toNat - 48)) 0

/-- NestJS `ParseIntPipe`: the path parameter must match `-?\d+`; the value
then goes through `parseInt`, i.e. through a 64-bit float, exact only up to
`2^53`. -/
def parseIntPipe (s : String) : Option Int :=
  match s.data with
  | [] => none
  | c :: cs =>
    if c = '-' then
      if cs ≠ [] ∧ cs.all isDigitChar then
        some (-(float64Round (digitsToNat cs) : Int))
      else none
    else if (c :: cs).all isDigitChar then
      some ((float64Round (digitsToNat (c :: cs)) : Int))
    else none

/-- The response DTO of the read API: exactly the four fields, all strings. -/
structure EvmBlockDto where
  number : String
  hash : String
  parentHash : String
  timestamp : String
deriving DecidableEq, Repr

/-- `toEvmBlockDto`: `number.toString()` and `timestamp.toString()` of the
stored bigints, hashes passed through. -/
def toEvmBlockDto (b : EvmBlock) : EvmBlockDto :=
  { number := ⟨natToDecimal b.number⟩, hash := b.hash, parentHash := b.parentHash,
    timestamp := ⟨natToDecimal b.timestamp⟩ }

/-- A response body of the evm/blocks routes: a block DTO or the soft
`error: Not found` sentinel. -/
inductive HttpBody where
  | block (dto : EvmBlockDto)
  | errorNotFound (msg : String)
deriving DecidableEq, Repr

/-- The observable response of a route: 200 with a body, 400 from the pipe,
or a 404 — which these routes never produce. -/
inductive HttpResponse where
  | ok (body : HttpBody)
  | badRequest
  | notFound404
deriving DecidableEq, Repr

/-- `getLatest` as reached from the route layer, whose parsed parameter is a
JS number (possibly negative, never matching a stored row). -/
def getLatestZ (s : List EvmBlock) (c : Int) : Option EvmBlock :=
  (s.filter (fun r => (r.chainId : Int) == c)).foldl
    (fun acc r =>
      match acc with
      | none => some r
      | some m => some (pickLater m r))
    none

/-- `byNumber` as reached from the route layer. -/
def byNumberZ (s : List EvmBlock) (c n : Int) : Option EvmBlock :=
  ((s.filter (fun r => (r.chainId : Int) == c)).filter
    (fun r => (r.number : Int) == n)).head?

/-- `GET /evm/blocks/:chainId/latest`: ParseIntPipe on the parameter, then
the DTO of the latest stored row or the `Not found` sentinel at status
200. -/
def latestRoute (st : List EvmBlock) (chainIdParam : String) : HttpResponse :=
  match parseIntPipe chainIdParam with
  | none => HttpResponse.badRequest
  | some c =>
    match getLatestZ st c with
    | none => HttpResponse.ok (HttpBody.errorNotFound "Not found")
    | some r => HttpResponse.ok (HttpBody.block (toEvmBlockDto r))

/-- `GET /evm/blocks/:chainId/:number`: ParseIntPipe on both parameters, then
the DTO of the stored row or the `Not found` sentinel at status 200. -/
def byNumberRoute (st : List EvmBlock) (chainIdParam numberParam : String) : HttpResponse :=
  match parseIntPipe chainIdParam, parseIntPipe numberParam with
  | none, _ => HttpResponse.badRequest
  | _, none => HttpResponse.badRequest
  | some c, some n =>
    match byNumberZ st c n with
    | none => HttpResponse.ok (HttpBody.errorNotFound "Not found")
    | some r => HttpResponse.ok (HttpBody.block (toEvmBlockDto r))

/-- A hex digit as matched by the case-insensitive `[a-f0-9]` classes. -/
def isHexChar (c : Char) : Bool :=
  isDigitChar c || ('a' ≤ c && c ≤ 'f') || ('A' ≤ c && c ≤ 'F')

/-- Consume exactly `n` characters satisfying `p`, returning the remainder:
the `\x7bn\x7d`-bounded pieces of the normalization regexes. -/
def dropExact : Nat → (Char → Bool) → List Char → Option (List Char)
  | 0, _, s => some s
  | _ + 1, _, [] => none
  | n + 1, p, ch :: cs => if p ch then dropExact n p cs else none

/-- Consume a literal dash. -/
def dropDash : List Char → Option (List Char)
  | c :: cs => if c = '-' then some cs else none
  | [] => none

/-- The UUID pattern `[0-9a-f]\x7b8\x7d-…\x7b4\x7d-…\x7b4\x7d-…\x7b4\x7d-…\x7b12\x7d` (case
insensitive), anchored at the segment start; returns the unmatched
remainder. The `normalizeRoute` regexes all start with an escaped slash, so
every match is anchored at a segment boundary and never crosses one — the
per-segment model below is exact. -/
def uuidMatch (s : List Char) : Option (List Char) :=
  (dropExact 8 isHexChar s).bind fun s1 =>
  (dropDash s1).bind fun s2 =>
  (dropExact 4 isHexChar s2).bind fun s3 =>
  (dropDash s3).bind fun s4 =>
  (dropExact 4 isHexChar s4).bind fun s5 =>
  (dropDash s5).bind fun s6 =>
  (dropExact 4 isHexChar s6).bind fun s7 =>
  (dropDash s7).bind fun s8 =>
  dropExact 12 isHexChar s8

/-- First replacement: a UUID prefix becomes `:id`. -/
def ruleUuid (s : List Char) : List Char :=
  match uuidMatch s with
  | some rest => ':' :: 'i' :: 'd' :: rest
  | none => s

/-- The `0x[a-f0-9]+` pattern (case insensitive, greedy) anchored at the
segment start. -/
def hex0xMatch (s : List Char) : Option (List Char) :=
  match s with
  | c0 :: x :: c :: cs =>
    if c0 == '0' && (x == 'x' || x == 'X') && isHexChar c then
      some ((c :: cs).dropWhile isHexChar)
    else none
  | _ => none

/-- Second replacement: a `0x`-hex prefix becomes `:hash`. -/
def ruleHex0x (s : List Char) : List Char :=
  match hex0xMatch s with
  | some rest => ':' :: 'h' :: 'a' :: 's' :: 'h' :: rest
  | none => s

/-- Third replacement: 64 hex characters become `:hash`. -/
def rule64 (s : List Char) : List Char :=
  match dropExact 64 isHexChar s with
  | some rest => ':' :: 'h' :: 'a' :: 's' :: 'h' :: rest
  | none => s

/-- Fourth replacement: 40 hex characters become `:address`. -/
def rule40 (s : List Char) : List Char :=
  match dropExact 40 isHexChar s with
  | some rest => ':' :: 'a' :: 'd' :: 'd' :: 'r' :: 'e' :: 's' :: 's' :: rest
  | none => s

/-- Last replacement: a `\d+` prefix (greedy) becomes `:id`. -/
def ruleNum (s : List Char) : List Char :=
  match s with
  | c :: _ => if isDigitChar c then ':' :: 'i' :: 'd' :: s.dropWhile isDigitChar else s
  | [] => []

/-- `MetricsService.normalizeRoute` on one path segment: the five
replacements in source order — UUID, `0x`-hex, 64-hex, 40-hex, decimal —
each anchored at the segment start by its leading escaped slash. -/
def normalizeSegment (s : List Char) : List Char :=
  ruleNum (rule40 (rule64 (ruleHex0x (ruleUuid s))))

/-- `MetricsService.normalizeRoute` on a path split into segments, with the
`or-unknown` fallback for the empty path. -/
def normalizeRoute (segs : List (List Char)) : List (List Char) :=
  if segs.isEmpty then [['u', 'n', 'k', 'n', 'o', 'w', 'n']]
  else segs.map normalizeSegment

/-- A digit-only segment (nonempty, U6's first banned class). -/
def isDigitOnlySeg (s : List Char) : Bool := !s.isEmpty && s.all isDigitChar

/-- A 40-hex-character segment. -/
def isHex40Seg (s : List Char) : Bool := s.all isHexChar && s.length == 40

/-- A 64-hex-character segment. -/
def isHex64Seg (s : List Char) : Bool := s.all isHexChar && s.length == 64

/-- A `0x`-prefixed hex segment (nonempty hex tail). -/
def isHex0xSeg (s : List Char) : Bool :=
  match s with
  | c0 :: x :: rest => c0 == '0' && (x == 'x' || x == 'X') && !rest.isEmpty && rest.all isHexChar
  | _ => false

/-- A UUID segment: exactly the dashed 8-4-4-4-12 hex shape. -/
def isUuidSeg (s : List Char) : Bool := uuidMatch s == some []

/-- A segment of one of the five classes U6 forbids in recorded route
labels. -/
def bannedSeg (s : List Char) : Bool :=
  isDigitOnlySeg s || isHex40Seg s || isHex64Seg s || isHex0xSeg s || isUuidSeg s

theorem createMany_cons (s : List EvmBlock) (b : EvmBlock) (bs : List EvmBlock) :
    createMany s (b :: bs) =
      if hasConflict s b then createMany s bs
      else ((createMany (s ++ [b]) bs).1, (createMany (s ++ [b]) bs).2 + 1) := rfl

theorem createMany_cons_skip (s : List EvmBlock) (b : EvmBlock) (bs : List EvmBlock)
    (h : hasConflict s b = true) : createMany s (b :: bs) = createMany s bs := by
  rw [createMany_cons, if_pos h]

theorem createMany_cons_ins (s : List EvmBlock) (b : EvmBlock) (bs : List EvmBlock)
    (h : hasConflict s b = false) :
    createMany s (b :: bs) = ((createMany (s ++ [b]) bs).1, (createMany (s ++ [b]) bs).2 + 1) := by
  rw [createMany_cons, if_neg]
  simp [h]

theorem hasConflict_append (s t : List EvmBlock) (b : EvmBlock)
    (h : hasConflict s b = true) : hasConflict (s ++ t) b = true := by
  simp only [hasConflict, List.any_eq_true] at h ⊢
  obtain ⟨r, hr, hc⟩ := h
  exact ⟨r, List.mem_append_left _ hr, hc⟩

theorem hasConflict_of_mem (s : List EvmBlock) (b : EvmBlock)
    (h : b ∈ s) : hasConflict s b = true := by
  simp only [hasConflict, List.any_eq_true]
  refine ⟨b, h, ?_⟩
  simp [conflictsWith]

theorem createMany_state_append (l : List EvmBlock) :
    ∀ s : List EvmBlock, ∃ t, (createMany s l).1 = s ++ t ∧ ∀ r ∈ t, r ∈ l := by
  induction l with
  | nil => intro s; exact ⟨[], by simp [createMany], by simp⟩
  | cons b bs ih =>
    intro s
    by_cases hc : hasConflict s b = true
    · obtain ⟨t, ht, hmem⟩ := ih s
      exact ⟨t, by simp [createMany_cons_skip _ _ _ hc, ht],
        fun r hr => List.mem_cons_of_mem _ (hmem r hr)⟩
    · obtain ⟨t, ht, hmem⟩ := ih (s ++ [b])
      refine ⟨b :: t, ?_, ?_⟩
      · rw [createMany_cons_ins _ _ _ (by simpa using hc)]
        simpa using ht
      · intro r hr
        rcases List.mem_cons.mp hr with hr | hr
        · exact hr ▸ List.mem_cons_self _ _
        · exact List.mem_cons_of_mem _ (hmem r hr)

theorem createMany_length (l : List EvmBlock) :
    ∀ s : List EvmBlock, (createMany s l).1.length = s.length + (createMany s l).2 := by
  induction l with
  | nil => intro s; simp [createMany]
  | cons b bs ih =>
    intro s
    by_cases hc : hasConflict s b = true
    · simpa [createMany_cons_skip _ _ _ hc] using ih s
    · have h2 := ih (s ++ [b])
      rw [createMany_cons_ins _ _ _ (by simpa using hc)]
      simp only [List.length_append, List.length_singleton] at h2
      simpa using by omega

theorem createMany_batch_append (l₁ l₂ : List EvmBlock) :
    ∀ s : List EvmBlock,
      (createMany s (l₁ ++ l₂)).1 = (createMany (createMany s l₁).1 l₂).1 ∧
      (createMany s (l₁ ++ l₂)).2 =
        (createMany s l₁).2 + (createMany (createMany s l₁).1 l₂).2 := by
  induction l₁ with
  | nil => intro s; simp [createMany]
  | cons b bs ih =>
    intro s
    by_cases hc : hasConflict s b = true
    · simpa [createMany_cons_skip _ _ _ hc] using ih s
    · have h2 := ih (s ++ [b])
      rw [List.cons_append, createMany_cons_ins _ _ _ (by simpa using hc),
        createMany_cons_ins _ _ _ (by simpa using hc)]
      refine ⟨h2.1, ?_⟩
      have h3 := h2.2
      dsimp only
      omega

theorem createMany_all_conflict (l : List EvmBlock) :
    ∀ s : List EvmBlock, (∀ b ∈ l, hasConflict s b = true) → createMany s l = (s, 0) := by
  induction l with
  | nil => intro s _; simp [createMany]
  | cons b bs ih =>
    intro s h
    rw [createMany_cons_skip _ _ _ (h b (List.mem_cons_self _ _))]
    exact ih s (fun x hx => h x (List.mem_cons_of_mem _ hx))

theorem createMany_conflict_after (l : List EvmBlock) :
    ∀ s : List EvmBlock, ∀ b ∈ l, hasConflict (createMany s l).1 b = true := by
  induction l with
  | nil => intro s b hb; cases hb
  | cons x xs ih =>
    intro s b hb
    by_cases hc : hasConflict s x = true
    · rw [createMany_cons_skip _ _ _ hc]
      rcases List.mem_cons.mp hb with hb | hb
      · obtain ⟨t, ht, _⟩ := createMany_state_append xs s
        rw [ht]
        exact hasConflict_append _ _ _ (hb ▸ hc)
      · exact ih s b hb
    · rw [createMany_cons_ins _ _ _ (by simpa using hc)]
      rcases List.mem_cons.mp hb with hb | hb
      · obtain ⟨t, ht, _⟩ := createMany_state_append xs (s ++ [x])
        rw [ht]
        refine hasConflict_of_mem _ _ ?_
        subst hb
        exact List.mem_append_left _ (List.mem_append_right _ (List.mem_singleton_self b))
      · exact ih (s ++ [x]) b hb

/-- Claim C1: for any two batches with any overlap, `upsertMany(S1)` then
`upsertMany(S2)` leaves the store in the state of a single
`upsertMany(S1 ++ S2)`; a row conflicting on `(chainId, number)` or
`(chainId, hash)` is silently skipped; the returned count is the number of
rows actually inserted (the growth of the store); and replaying an identical
batch a second time inserts zero rows. -/
theorem upsertMany_idempotent_dedup (s l₁ l₂ : List EvmBlock) :
    (upsertBlocks (upsertBlocks s l₁).1 l₂).1 = (upsertBlocks s (l₁ ++ l₂)).1 ∧
    (∀ b bs, hasConflict s b = true → createMany s (b :: bs) = createMany s bs) ∧
    (upsertBlocks s l₁).1.length = s.length + (upsertBlocks s l₁).2 ∧
    (upsertBlocks (upsertBlocks s l₁).1 l₁).2 = 0 := by
  refine ⟨((createMany_batch_append l₁ l₂ s).1).symm,
    fun b bs hc => createMany_cons_skip _ _ _ hc, createMany_length l₁ s, ?_⟩
  have hall := createMany_conflict_after l₁ s
  have := createMany_all_conflict l₁ (createMany s l₁).1 hall
  simp [upsertBlocks, this]

theorem applyBatches_state_append (bs : List (List EvmBlock)) :
    ∀ s : List EvmBlock, ∃ t, applyBatches s bs = s ++ t := by
  induction bs with
  | nil => intro s; exact ⟨[], by simp [applyBatches]⟩
  | cons b rest ih =>
    intro s
    obtain ⟨t₁, ht₁, _⟩ := createMany_state_append b s
    obtain ⟨t₂, ht₂⟩ := ih (createMany s b).1
    refine ⟨t₁ ++ t₂, ?_⟩
    simp only [applyBatches, List.foldl_cons, upsertBlocks] at ht₂ ⊢
    rw [ht₂, ht₁, List.append_assoc]

theorem byNumber_append (s t : List EvmBlock) (c n : Nat) (r : EvmBlock)
    (h : byNumber s c n = some r) : byNumber (s ++ t) c n = some r := by
  simp only [byNumber, chainRows, List.filter_append, List.head?_append] at h ⊢
  rw [h]
  rfl

theorem pickLater_le_number (a b : EvmBlock) : a.number ≤ (pickLater a b).number := by
  unfold pickLater
  split
  · omega
  · exact Nat.le_refl _

theorem foldl_latest_mono (l : List EvmBlock) :
    ∀ r0 : EvmBlock,
      ∃ r2, l.foldl
          (fun acc r =>
            match acc with
            | none => some r
            | some m => some (pickLater m r))
          (some r0) = some r2 ∧ r0.number ≤ r2.number := by
  induction l with
  | nil => intro r0; exact ⟨r0, rfl, Nat.le_refl _⟩
  | cons x xs ih =>
    intro r0
    obtain ⟨r2, hr2, hle⟩ := ih (pickLater r0 x)
    exact ⟨r2, hr2, Nat.le_trans (pickLater_le_number r0 x) hle⟩

theorem getLatest_append_mono (s t : List EvmBlock) (c : Nat) (r : EvmBlock)
    (h : getLatest s c = some r) :
    ∃ r2, getLatest (s ++ t) c = some r2 ∧ r.number ≤ r2.number := by
  simp only [getLatest, chainRows, List.filter_append, List.foldl_append] at h ⊢
  rw [h]
  exact foldl_latest_mono _ r

/-- Claim C10: the batch write never modifies or removes an existing row —
every sequence of `upsertBlocks` calls only appends rows; hence once
`byNumber` returns a header it keeps returning that same header, and the
height of `getLatest` never decreases. -/
theorem upsertBlocks_append_only (s : List EvmBlock) (bs : List (List EvmBlock)) :
    (∃ t, applyBatches s bs = s ++ t) ∧
    (∀ c n r, byNumber s c n = some r → byNumber (applyBatches s bs) c n = some r) ∧
    (∀ c r, getLatest s c = some r →
      ∃ r2, getLatest (applyBatches s bs) c = some r2 ∧ r.number ≤ r2.number) := by
  obtain ⟨t, ht⟩ := applyBatches_state_append bs s
  refine ⟨⟨t, ht⟩, ?_, ?_⟩
  · intro c n r h
    rw [ht]
    exact byNumber_append s t c n r h
  · intro c r h
    rw [ht]
    exact getLatest_append_mono s t c r h

theorem mem_of_getLast?_some (l : List Nat) (a : Nat) (h : l.getLast? = some a) : a ∈ l := by
  obtain ⟨hne, hx⟩ := List.mem_getLast?_eq_getLast (Option.mem_def.mpr h)
  exact hx ▸ List.getLast_mem hne

theorem sortedHeights_sorted_lt (s : List EvmBlock) (c : Nat) :
    (sortedHeights s c).Sorted (· < ·) := by
  have hs : (sortedHeights s c).Sorted (· ≤ ·) := List.sorted_insertionSort _ _
  have hperm := List.perm_insertionSort (· ≤ ·) (chainNumbers s c).dedup
  have hnd : (sortedHeights s c).Nodup := hperm.nodup_iff.mpr (List.nodup_dedup _)
  exact (hs.and hnd).imp (fun h => lt_of_le_of_ne h.1 h.2)

theorem mem_sortedHeights (s : List EvmBlock) (c : Nat) (n : Nat) :
    n ∈ sortedHeights s c ↔ n ∈ chainNumbers s c := by
  rw [sortedHeights, List.mem_insertionSort, List.mem_dedup]

theorem sorted_lt_head_le (hs : List Nat) (f : Nat) (hsort : hs.Sorted (· < ·))
    (hh : hs.head? = some f) : ∀ m ∈ hs, f ≤ m := by
  cases hs with
  | nil => simp at hh
  | cons x t =>
    have hx : x = f := by simpa using hh
    subst hx
    intro m hm
    rcases List.mem_cons.mp hm with hm | hm
    · exact hm ▸ Nat.le_refl _
    · exact Nat.le_of_lt ((List.pairwise_cons.mp hsort).1 m hm)

theorem sorted_lt_le_getLast : ∀ (hs : List Nat) (l : Nat),
    hs.Sorted (· < ·) → hs.getLast? = some l → ∀ m ∈ hs, m ≤ l
  | [], _, _, hl => by simp at hl
  | [x], l, _, hl => by
    intro m hm
    have hx : x = l := by simpa using hl
    have hm2 : m = x := by simpa using hm
    omega
  | a :: b :: t, l, hsort, hl => by
    intro m hm
    rw [List.getLast?_cons_cons] at hl
    have ihall := sorted_lt_le_getLast (b :: t) l hsort.of_cons hl
    rcases List.mem_cons.mp hm with hm | hm
    · have hab : a < b := (List.pairwise_cons.mp hsort).1 b (List.mem_cons_self _ _)
      have hb := ihall b (List.mem_cons_self _ _)
      omega
    · exact ihall m hm

theorem sorted_head_le_getLast (hs : List Nat) (f l : Nat) (hsort : hs.Sorted (· < ·))
    (hh : hs.head? = some f) (hl : hs.getLast? = some l) : f ≤ l :=
  sorted_lt_head_le hs f hsort hh l (mem_of_getLast?_some hs l hl)

theorem gapRanges_nil : gapRanges [] = [] := rfl

theorem gapRanges_single (a : Nat) : gapRanges [a] = [] := rfl

theorem gapRanges_cons_cons (a b : Nat) (rest : List Nat) :
    gapRanges (a :: b :: rest) =
      if a + 1 < b then (a + 1, b - 1) :: gapRanges (b :: rest)
      else gapRanges (b :: rest) := rfl

theorem gapRanges_pair_bounds : ∀ (hs : List Nat) (p : Nat × Nat), p ∈ gapRanges hs → p.1 ≤ p.2
  | [], p, hp => by simp [gapRanges_nil] at hp
  | [a], p, hp => by simp [gapRanges_single] at hp
  | a :: b :: rest, p, hp => by
    rw [gapRanges_cons_cons] at hp
    by_cases h : a + 1 < b
    · rw [if_pos h] at hp
      rcases List.mem_cons.mp hp with hp | hp
      · subst hp; simp; omega
      · exact gapRanges_pair_bounds (b :: rest) p hp
    · rw [if_neg h] at hp
      exact gapRanges_pair_bounds (b :: rest) p hp

theorem mem_rangeHeights (a b n : Nat) : n ∈ rangeHeights a b ↔ a ≤ n ∧ n ≤ b := by
  rw [rangeHeights, List.mem_range']
  constructor
  · rintro ⟨i, hi, rfl⟩; omega
  · intro h; exact ⟨n - a, by omega, by omega⟩

theorem rangeHeights_ne_nil (a b : Nat) (h : a ≤ b) : rangeHeights a b ≠ [] := by
  rw [rangeHeights, Ne, List.range'_eq_nil]
  omega

theorem rangeHeights_nil (a b : Nat) (h : b < a) : rangeHeights a b = [] := by
  rw [rangeHeights]
  exact List.range'_eq_nil.mpr (by omega)

theorem rangeHeights_sorted (a b : Nat) : (rangeHeights a b).Sorted (· < ·) :=
  List.pairwise_lt_range' _ _

theorem rangeHeights_split (a b c : Nat) (h1 : a ≤ b + 1) (h2 : b ≤ c) :
    rangeHeights a c = rangeHeights a b ++ rangeHeights (b + 1) c := by
  rw [rangeHeights, rangeHeights, rangeHeights]
  have hr := List.range'_append a (b + 1 - a) (c - b) 1
  rw [show a + 1 * (b + 1 - a) = b + 1 by omega] at hr
  rw [show c - b + (b + 1 - a) = c + 1 - a by omega] at hr
  rw [show c + 1 - (b + 1) = c - b by omega]
  exact hr.symm

theorem rangeHeights_cons (a b : Nat) (h : a ≤ b) :
    rangeHeights a b = a :: rangeHeights (a + 1) b := by
  rw [rangeHeights, rangeHeights]
  rw [show b + 1 - a = (b - a) + 1 by omega]
  rw [List.range'_succ]
  rw [show b + 1 - (a + 1) = b - a by omega]

theorem length_le_flatMap (L : List (Nat × Nat))
    (h : ∀ p ∈ L, rangeHeights p.1 p.2 ≠ []) :
    L.length ≤ (L.flatMap (fun p => rangeHeights p.1 p.2)).length := by
  induction L with
  | nil => simp
  | cons x xs ih =>
    simp only [List.flatMap_cons, List.length_append, List.length_cons]
    have hx : rangeHeights x.1 x.2 ≠ [] := h x (List.mem_cons_self _ _)
    have h1 : 0 < (rangeHeights x.1 x.2).length := List.length_pos.mpr hx
    have h2 := ih (fun p hp => h p (List.mem_cons_of_mem _ hp))
    omega

theorem flatMap_take_take (L : List (Nat × Nat)) (k : Nat)
    (h : ∀ p ∈ L, rangeHeights p.1 p.2 ≠ []) :
    ((L.take k).flatMap (fun p => rangeHeights p.1 p.2)).take k
      = (L.flatMap (fun p => rangeHeights p.1 p.2)).take k := by
  by_cases hk : L.length ≤ k
  · rw [List.take_of_length_le hk]
  · have hlen : k ≤ ((L.take k).flatMap (fun p => rangeHeights p.1 p.2)).length := by
      have h1 := length_le_flatMap (L.take k)
        (fun p hp => h p (List.Sublist.mem hp (List.take_sublist k L)))
      have h2 : (L.take k).length = k := by
        rw [List.length_take]; omega
      omega
    conv_rhs => rw [← List.take_append_drop k L]
    rw [List.flatMap_append, List.take_append_of_le_length hlen]

theorem specInteriorMissing_single (a : Nat) : specInteriorMissing [a] = [] := by
  rw [specInteriorMissing]
  simp [rangeHeights_nil (a + 1) (a - 1) (by omega)]

theorem gapHeights_eq_spec : ∀ (hs : List Nat), hs.Sorted (· < ·) →
    gapHeights hs = specInteriorMissing hs
  | [] => fun _ => rfl
  | [a] => fun _ => by
    rw [specInteriorMissing_single, gapHeights, gapRanges_single]
    rfl
  | a :: b :: rest => fun hsort => by
    have hsort2 : (b :: rest).Sorted (· < ·) := hsort.of_cons
    have hab : a < b := (List.pairwise_cons.mp hsort).1 b (List.mem_cons_self _ _)
    obtain ⟨l, hl⟩ : ∃ l, (b :: rest).getLast? = some l := by
      cases hll : (b :: rest).getLast? with
      | none => exact absurd (List.getLast?_eq_none_iff.mp hll) (List.cons_ne_nil _ _)
      | some x => exact ⟨x, rfl⟩
    have hbl : b ≤ l := sorted_lt_le_getLast (b :: rest) l hsort2 hl b (List.mem_cons_self _ _)
    have hrest_gt : ∀ x ∈ rest, b < x := (List.pairwise_cons.mp hsort2).1
    have hIH : gapHeights (b :: rest) = specInteriorMissing (b :: rest) :=
      gapHeights_eq_spec (b :: rest) hsort2
    have hspec2 : specInteriorMissing (b :: rest)
        = (rangeHeights (b + 1) (l - 1)).filter (fun n => decide (n ∉ b :: rest)) := by
      rw [specInteriorMissing, List.head?_cons, hl]
    have hlast : (a :: b :: rest).getLast? = some l := by
      rw [List.getLast?_cons_cons]; exact hl
    have hspec1 : specInteriorMissing (a :: b :: rest)
        = (rangeHeights (a + 1) (l - 1)).filter (fun n => decide (n ∉ a :: b :: rest)) := by
      rw [specInteriorMissing, List.head?_cons, hlast]
    -- split the full interior range at b - 1
    have hsplit : rangeHeights (a + 1) (l - 1)
        = rangeHeights (a + 1) (b - 1) ++ rangeHeights b (l - 1) := by
      have := rangeHeights_split (a + 1) (b - 1) (l - 1) (by omega) (by omega)
      rwa [show b - 1 + 1 = b by omega] at this
    -- the first block of the filtered range is kept whole
    have hkeep : (rangeHeights (a + 1) (b - 1)).filter (fun n => decide (n ∉ a :: b :: rest))
        = rangeHeights (a + 1) (b - 1) := by
      apply List.filter_eq_self.mpr
      intro n hn
      rw [mem_rangeHeights] at hn
      simp only [decide_eq_true_eq, List.mem_cons, not_or]
      refine ⟨by omega, by omega, fun hmem => ?_⟩
      have := hrest_gt n hmem
      omega
    -- on the second block, membership in a :: b :: rest is membership in b :: rest
    have hcongr : (rangeHeights b (l - 1)).filter (fun n => decide (n ∉ a :: b :: rest))
        = (rangeHeights b (l - 1)).filter (fun n => decide (n ∉ b :: rest)) := by
      apply List.filter_congr
      intro n hn
      rw [mem_rangeHeights] at hn
      simp only [decide_eq_decide, List.mem_cons, not_or]
      constructor
      · rintro ⟨_, h2, h3⟩; exact ⟨h2, h3⟩
      · rintro ⟨h2, h3⟩; exact ⟨by omega, h2, h3⟩
    -- the second block drops its head b and becomes the tail interior
    have htail : (rangeHeights b (l - 1)).filter (fun n => decide (n ∉ b :: rest))
        = specInteriorMissing (b :: rest) := by
      rw [hspec2]
      by_cases hbl2 : b < l
      · rw [rangeHeights_cons b (l - 1) (by omega), List.filter_cons]
        have hbmem : (decide (b ∉ b :: rest)) = false := by
          simp
        rw [hbmem]
        simp
      · have hbe : l = b := by omega
        rw [hbe, rangeHeights_nil b (b - 1) (by omega),
          rangeHeights_nil (b + 1) (b - 1) (by omega)]
    -- assemble
    rw [hspec1, hsplit, List.filter_append, hkeep, hcongr, htail, ← hIH]
    rw [gapHeights, gapRanges_cons_cons]
    by_cases h : a + 1 < b
    · rw [if_pos h, List.flatMap_cons]
      rfl
    · rw [if_neg h, rangeHeights_nil (a + 1) (b - 1) (by omega)]
      rfl

theorem findMissing_eq_take (s : List EvmBlock) (c : Nat) :
    findMissingFullRange s c = (specInteriorMissing (sortedHeights s c)).take 10 := by
  have hsort := sortedHeights_sorted_lt s c
  rcases hhs : sortedHeights s c with _ | ⟨f0, t⟩
  · rw [findMissingFullRange, hhs]
    rfl
  · obtain ⟨l, hl⟩ : ∃ l, (f0 :: t).getLast? = some l := by
      cases hll : (f0 :: t).getLast? with
      | none => exact absurd (List.getLast?_eq_none_iff.mp hll) (List.cons_ne_nil _ _)
      | some x => exact ⟨x, rfl⟩
    rw [hhs] at hsort
    have hfl : f0 ≤ l :=
      sorted_head_le_getLast (f0 :: t) f0 l hsort (List.head?_cons) hl
    have hne : ∀ p ∈ gapRanges (f0 :: t), rangeHeights p.1 p.2 ≠ [] := by
      intro p hp
      exact rangeHeights_ne_nil _ _ (gapRanges_pair_bounds (f0 :: t) p hp)
    rw [findMissingFullRange, hhs, List.head?_cons, hl]
    dsimp only
    rw [if_neg (by omega)]
    rw [flatMap_take_take _ 10 hne]
    rw [← gapHeights, gapHeights_eq_spec (f0 :: t) hsort]

theorem specInteriorMissing_sorted (hs : List Nat) :
    (specInteriorMissing hs).Sorted (· < ·) := by
  rcases hs with _ | ⟨f0, t⟩
  · exact List.Pairwise.nil
  · obtain ⟨l, hl⟩ : ∃ l, (f0 :: t).getLast? = some l := by
      cases hll : (f0 :: t).getLast? with
      | none => exact absurd (List.getLast?_eq_none_iff.mp hll) (List.cons_ne_nil _ _)
      | some x => exact ⟨x, rfl⟩
    rw [specInteriorMissing, List.head?_cons, hl]
    exact (rangeHeights_sorted _ _).filter _

theorem mem_specInteriorMissing (hs : List Nat) (n f l : Nat)
    (hh : hs.head? = some f) (hl : hs.getLast? = some l) :
    n ∈ specInteriorMissing hs ↔ (f + 1 ≤ n ∧ n ≤ l - 1 ∧ n ∉ hs) := by
  rw [specInteriorMissing, hh, hl, List.mem_filter, mem_rangeHeights]
  simp only [decide_eq_true_eq]
  tauto

/-- Claim C2: every call of the gap primitive (`findMissingInRange` with its
fixed `limit = 10`, implemented by `findMissingFullRange`) returns at most 10
heights, strictly ascending, each strictly between the chain's least and
greatest stored heights; a chain with no stored blocks yields the empty
list. -/
theorem findMissingFullRange_bounded_ascending (s : List EvmBlock) (c : Nat) :
    (findMissingFullRange s c).length ≤ 10 ∧
    (findMissingFullRange s c).Sorted (· < ·) ∧
    (∀ f l, (sortedHeights s c).head? = some f → (sortedHeights s c).getLast? = some l →
      (∀ m ∈ chainNumbers s c, f ≤ m ∧ m ≤ l) ∧
      (∀ n ∈ findMissingFullRange s c, f < n ∧ n < l)) ∧
    (chainRows s c = [] → findMissingFullRange s c = []) := by
  have hsort := sortedHeights_sorted_lt s c
  refine ⟨?_, ?_, ?_, ?_⟩
  · rw [findMissing_eq_take]
    rw [List.length_take]
    omega
  · rw [findMissing_eq_take]
    exact List.Pairwise.sublist (List.take_sublist _ _) (specInteriorMissing_sorted _)
  · intro f l hh hl
    constructor
    · intro m hm
      have hm2 : m ∈ sortedHeights s c := (mem_sortedHeights s c m).mpr hm
      exact ⟨sorted_lt_head_le _ f hsort hh m hm2,
        sorted_lt_le_getLast _ l hsort hl m hm2⟩
    · intro n hn
      rw [findMissing_eq_take] at hn
      have hn2 : n ∈ specInteriorMissing (sortedHeights s c) :=
        List.Sublist.mem hn (List.take_sublist _ _)
      have := (mem_specInteriorMissing _ n f l hh hl).mp hn2
      omega
  · intro h
    have hempty : sortedHeights s c = [] := by
      simp [sortedHeights, chainNumbers, h]
    rw [findMissingFullRange, hempty]
    rfl

/-- Claim C3: the gap primitive returns exactly the `min(K, 10)` smallest
missing heights in ascending order — the 10-element prefix of the full
ascending enumeration of interior missing heights; when at most 10 heights
are missing it returns all of them; and on the island store
3000..3010 / 3050..3060 / 3100..3110 it returns exactly 3011..3020. -/
theorem findMissingFullRange_complete_within_cap (s : List EvmBlock) (c : Nat) :
    findMissingFullRange s c = (specInteriorMissing (sortedHeights s c)).take 10 ∧
    ((specInteriorMissing (sortedHeights s c)).length ≤ 10 →
      findMissingFullRange s c = specInteriorMissing (sortedHeights s c)) ∧
    findMissingFullRange islandsState 99
      = [3011, 3012, 3013, 3014, 3015, 3016, 3017, 3018, 3019, 3020] := by
  refine ⟨findMissing_eq_take s c, ?_, ?_⟩
  · intro h
    rw [findMissing_eq_take s c, List.take_of_length_le h]
  · decide

theorem findMissing_of_empty (st : List EvmBlock) (c : Nat) (h : chainRows st c = []) :
    findMissingFullRange st c = [] := by
  have hempty : sortedHeights st c = [] := by
    simp [sortedHeights, chainNumbers, h]
  rw [findMissingFullRange, hempty]
  rfl

theorem chainRows_append (s t : List EvmBlock) (c : Nat) :
    chainRows (s ++ t) c = chainRows s c ++ chainRows t c :=
  List.filter_append _ _

theorem conflictsWith_chainId (r b : EvmBlock) (h : conflictsWith r b = true) :
    r.chainId = b.chainId := by
  simp only [conflictsWith, Bool.and_eq_true, beq_iff_eq] at h
  exact h.1

theorem hasConflict_chainRows (s : List EvmBlock) (b : EvmBlock) (c : Nat)
    (hb : b.chainId = c) : hasConflict (chainRows s c) b = hasConflict s b := by
  refine (by decide : ∀ (x y : Bool), (x = true ↔ y = true) → x = y) _ _ ?_
  simp only [hasConflict, List.any_eq_true, chainRows, List.mem_filter]
  constructor
  · rintro ⟨r, ⟨hr, _⟩, hcf⟩
    exact ⟨r, hr, hcf⟩
  · rintro ⟨r, hr, hcf⟩
    refine ⟨r, ⟨hr, ?_⟩, hcf⟩
    rw [beq_iff_eq, conflictsWith_chainId r b hcf, hb]

theorem chainRows_single_in (b : EvmBlock) (c : Nat) (h : b.chainId = c) :
    chainRows [b] c = [b] := by
  simp [chainRows, List.filter_cons, h]

theorem chainRows_single_out (b : EvmBlock) (c : Nat) (h : ¬ b.chainId = c) :
    chainRows [b] c = [] := by
  simp [chainRows, List.filter_cons, h]

theorem createMany_proj (c : Nat) : ∀ (l : List EvmBlock) (s : List EvmBlock),
    chainRows (createMany s l).1 c
      = (createMany (chainRows s c) (l.filter (fun b => b.chainId == c))).1 := by
  intro l
  induction l with
  | nil => intro s; simp [createMany]
  | cons b bs ih =>
    intro s
    by_cases hbc : b.chainId = c
    · have hfil : (b :: bs).filter (fun b => b.chainId == c)
          = b :: bs.filter (fun b => b.chainId == c) := by
        simp [List.filter_cons, hbc]
      by_cases hcf : hasConflict s b = true
      · rw [createMany_cons_skip _ _ _ hcf, hfil,
          createMany_cons_skip _ _ _ (by rw [hasConflict_chainRows s b c hbc]; exact hcf)]
        exact ih s
      · have hcf2 : hasConflict s b = false := by simpa using hcf
        rw [createMany_cons_ins _ _ _ hcf2, hfil,
          createMany_cons_ins _ _ _ (by rw [hasConflict_chainRows s b c hbc]; exact hcf2)]
        dsimp only
        rw [ih (s ++ [b]), chainRows_append, chainRows_single_in b c hbc]
    · have hfil : (b :: bs).filter (fun b => b.chainId == c)
          = bs.filter (fun b => b.chainId == c) := by
        simp [List.filter_cons, hbc]
      rw [hfil]
      by_cases hcf : hasConflict s b = true
      · rw [createMany_cons_skip _ _ _ hcf]
        exact ih s
      · rw [createMany_cons_ins _ _ _ (by simpa using hcf)]
        dsimp only
        rw [ih (s ++ [b]), chainRows_append, chainRows_single_out b c hbc,
          List.append_nil]

theorem createMany_frame (c : Nat) (l s : List EvmBlock)
    (h : ∀ x ∈ l, ¬ x.chainId = c) :
    chainRows (createMany s l).1 c = chainRows s c := by
  rw [createMany_proj c l s]
  have hfil : l.filter (fun b => b.chainId == c) = [] := by
    rw [List.filter_eq_nil_iff]
    intro a ha
    simpa using h a ha
  rw [hfil]
  rfl

theorem tick_ok (rpc : RpcSpec) (st : List EvmBlock) (c h : Nat) (b : RpcBlock)
    (hh : rpc.headNumber c = .ok h) (hb : rpc.blockByNumber c h = .ok b) :
    tick rpc st c = .ok (upsertBlocks st [tickRow c b]).1 := by
  rw [tick, hh]
  dsimp only
  rw [hb]

theorem tick_frame (rpc : RpcSpec) (st st2 : List EvmBlock) (c2 c : Nat)
    (hstep : tick rpc st c2 = .ok st2) (hne : c2 ≠ c) :
    chainRows st2 c = chainRows st c := by
  rw [tick] at hstep
  cases hh : rpc.headNumber c2 with
  | error e => rw [hh] at hstep; dsimp only at hstep; cases hstep
  | ok h =>
    rw [hh] at hstep
    dsimp only at hstep
    cases hb : rpc.blockByNumber c2 h with
    | error e => rw [hb] at hstep; dsimp only at hstep; cases hstep
    | ok b =>
      rw [hb] at hstep
      dsimp only at hstep
      cases hstep
      exact createMany_frame c [tickRow c2 b] st (by
        intro x hx
        rw [List.mem_singleton.mp hx]
        exact hne)

theorem chainLoopState_nil (act : List EvmBlock → Nat → Except String (List EvmBlock))
    (st : List EvmBlock) : chainLoopState act [] st = st := rfl

theorem chainLoopState_cons (act : List EvmBlock → Nat → Except String (List EvmBlock))
    (c0 : Nat) (cs : List Nat) (st : List EvmBlock) :
    chainLoopState act (c0 :: cs) st
      = chainLoopState act cs
          (match act st c0 with
           | .ok st2 => st2
           | .error _ => st) := rfl

theorem chainLoop_state_eq (act : List EvmBlock → Nat → Except String (List EvmBlock)) :
    ∀ (chains : List Nat) (acc : List EvmBlock × List (Nat × String)),
      (chains.foldl (chainStep act) acc).1 = chainLoopState act chains acc.1 := by
  intro chains
  induction chains with
  | nil => intro acc; rfl
  | cons c0 cs ih =>
    intro acc
    rw [List.foldl_cons, chainLoopState_cons]
    rw [ih (chainStep act acc c0)]
    rcases hstep : act acc.1 c0 with e | st2
    · rw [chainStep, hstep]
    · rw [chainStep, hstep]

theorem chainLoop_errs_grow (act : List EvmBlock → Nat → Except String (List EvmBlock)) :
    ∀ (chains : List Nat) (acc : List EvmBlock × List (Nat × String)),
      ∃ more, (chains.foldl (chainStep act) acc).2 = acc.2 ++ more := by
  intro chains
  induction chains with
  | nil => intro acc; exact ⟨[], by simp⟩
  | cons c0 cs ih =>
    intro acc
    rw [List.foldl_cons]
    rcases hstep : act acc.1 c0 with e | st2
    · have hstep2 : chainStep act acc c0 = (acc.1, acc.2 ++ [(c0, e)]) := by
        rw [chainStep, hstep]
      obtain ⟨more, hmore⟩ := ih (acc.1, acc.2 ++ [(c0, e)])
      refine ⟨[(c0, e)] ++ more, ?_⟩
      rw [hstep2, hmore]
      simp
    · have hstep2 : chainStep act acc c0 = (st2, acc.2) := by
        rw [chainStep, hstep]
      obtain ⟨more, hmore⟩ := ih (st2, acc.2)
      exact ⟨more, by rw [hstep2, hmore]⟩

theorem chainLoopState_frame
    (act : List EvmBlock → Nat → Except String (List EvmBlock)) (c : Nat)
    (hframe : ∀ st1 c2 st2, act st1 c2 = .ok st2 → c2 ≠ c →
      chainRows st2 c = chainRows st1 c) :
    ∀ (chains : List Nat) (st : List EvmBlock), c ∉ chains →
      chainRows (chainLoopState act chains st) c = chainRows st c := by
  intro chains
  induction chains with
  | nil => intro st _; rfl
  | cons c0 cs ih =>
    intro st hnc
    have hne : c0 ≠ c := fun he => hnc (he ▸ List.mem_cons_self _ _)
    have hnc2 : c ∉ cs := fun hm => hnc (List.mem_cons_of_mem _ hm)
    rw [chainLoopState_cons]
    rcases hstep : act st c0 with e | st2
    · rw [ih _ hnc2]
    · rw [ih _ hnc2]
      exact hframe st c0 st2 hstep hne

theorem cronState_isolated (rpc : RpcSpec) (c h : Nat) (b : RpcBlock)
    (hh : rpc.headNumber c = .ok h) (hb : rpc.blockByNumber c h = .ok b) :
    ∀ (chains : List Nat) (st : List EvmBlock), chains.Nodup → c ∈ chains →
      chainRows (chainLoopState (tick rpc) chains st) c
        = (createMany (chainRows st c) [tickRow c b]).1 := by
  intro chains
  induction chains with
  | nil => intro st _ hc; cases hc
  | cons c0 cs ih =>
    intro st hnd hc
    rw [chainLoopState_cons]
    by_cases hcc : c0 = c
    · subst hcc
      rw [tick_ok rpc st c0 h b hh hb]
      dsimp only
      have hnotin : c0 ∉ cs := (List.nodup_cons.mp hnd).1
      rw [chainLoopState_frame (tick rpc) c0
        (fun st1 c2 st2 hs hne => tick_frame rpc st1 st2 c2 c0 hs hne) cs _ hnotin]
      rw [upsertBlocks, createMany_proj c0 [tickRow c0 b] st]
      have hfil : [tickRow c0 b].filter (fun x => x.chainId == c0) = [tickRow c0 b] := by
        simp [List.filter_cons, tickRow]
      rw [hfil]
    · have hc2 : c ∈ cs := (List.mem_cons.mp hc).resolve_left (fun he => hcc he.symm)
      have hnd2 : cs.Nodup := (List.nodup_cons.mp hnd).2
      rcases hstep : tick rpc st c0 with e | st2
      · dsimp only
        exact ih st hnd2 hc2
      · dsimp only
        rw [ih st2 hnd2 hc2, tick_frame rpc st st2 c0 c hstep hcc]

/-- Claim C4: within one head tick over the configured chains, a failure of
any step for one chain does not abort the tick for the others — every chain
whose `headNumber` and `blockByNumber` resolve has its head block upserted in
that same tick, its rows ending exactly as if its tick ran alone, whatever
the RPC does on the other chains. -/
theorem handleCron_failure_isolated (rpc : RpcSpec) (chains : List Nat)
    (st : List EvmBlock) (c h : Nat) (b : RpcBlock)
    (hnd : chains.Nodup) (hc : c ∈ chains)
    (hh : rpc.headNumber c = .ok h) (hb : rpc.blockByNumber c h = .ok b) :
    chainRows (handleCron rpc chains st).1 c
      = (upsertBlocks (chainRows st c) [tickRow c b]).1 := by
  rw [handleCron, chainLoop, chainLoop_state_eq]
  exact cronState_isolated rpc c h b hh hb chains st hnd hc

/-- Claim C4 witness: with chain 2 always rejecting, chain 3's head block is
still fetched and upserted in the same tick over chains 1, 2, 3. -/
theorem handleCron_failure_isolated_witness :
    chainRows (handleCron rpcScenario [1, 2, 3] []).1 3
      = (upsertBlocks (chainRows ([] : List EvmBlock) 3)
          [tickRow 3 { number := 3000, hash := "0xhead", parentHash := "0xparent",
                       timestamp := 1700000000 }]).1 :=
  handleCron_failure_isolated rpcScenario [1, 2, 3] [] 3 3000
    { number := 3000, hash := "0xhead", parentHash := "0xparent", timestamp := 1700000000 }
    (by decide) (by decide) rfl rfl

theorem getLatest_congr (st1 st2 : List EvmBlock) (c : Nat)
    (h : chainRows st1 c = chainRows st2 c) : getLatest st1 c = getLatest st2 c := by
  rw [getLatest, getLatest, h]

theorem findMissing_congr (st1 st2 : List EvmBlock) (c : Nat)
    (h : chainRows st1 c = chainRows st2 c) :
    findMissingFullRange st1 c = findMissingFullRange st2 c := by
  have h2 : sortedHeights st1 c = sortedHeights st2 c := by
    rw [sortedHeights, sortedHeights, chainNumbers, chainNumbers, h]
  simp only [findMissingFullRange, h2]

theorem collectExcept_cons (f : Nat → Except String RpcBlock) (n0 : Nat) (ns : List Nat) :
    collectExcept f (n0 :: ns) =
      match f n0 with
      | .error e => .error e
      | .ok b =>
        match collectExcept f ns with
        | .error e => .error e
        | .ok bs => .ok (b :: bs) := rfl

theorem collectExcept_error (f : Nat → Except String RpcBlock) :
    ∀ (l : List Nat), (∃ n ∈ l, ∃ e, f n = .error e) →
      ∃ e2, collectExcept f l = .error e2 := by
  intro l
  induction l with
  | nil => rintro ⟨n, hn, _⟩; cases hn
  | cons n0 ns ih =>
    rintro ⟨n, hn, e, hf⟩
    cases hf0 : f n0 with
    | error e0 =>
      refine ⟨e0, ?_⟩
      rw [collectExcept_cons, hf0]
    | ok b0 =>
      have hn2 : n ∈ ns := by
        rcases List.mem_cons.mp hn with he | hm
        · rw [he, hf0] at hf; cases hf
        · exact hm
      obtain ⟨e2, hcol⟩ := ih ⟨n, hn2, e, hf⟩
      refine ⟨e2, ?_⟩
      rw [collectExcept_cons, hf0]
      dsimp only
      rw [hcol]

theorem getLatest_some_of_ne (st : List EvmBlock) (c : Nat) (h : chainRows st c ≠ []) :
    ∃ r, getLatest st c = some r := by
  rw [getLatest]
  rcases hr : chainRows st c with _ | ⟨x, xs⟩
  · exact absurd hr h
  · rw [List.foldl_cons]
    dsimp only
    obtain ⟨r2, h2, _⟩ := foldl_latest_mono xs x
    exact ⟨r2, h2⟩

theorem scan_error_of (rpc : RpcSpec) (st : List EvmBlock) (c : Nat) (r : EvmBlock)
    (e : String) (hl : getLatest st c = some r)
    (hm : findMissingFullRange st c ≠ [])
    (hcol : collectExcept (fun n => rpc.blockByNumber c n) (findMissingFullRange st c)
      = .error e) :
    scanClientTip rpc st c = .error e := by
  rw [scanClientTip, hl]
  dsimp only
  rw [if_neg hm, hcol]

theorem scan_frame (rpc : RpcSpec) (st st2 : List EvmBlock) (c2 c : Nat)
    (hstep : scanClientTip rpc st c2 = .ok st2) (hne : c2 ≠ c) :
    chainRows st2 c = chainRows st c := by
  rw [scanClientTip] at hstep
  cases hl : getLatest st c2 with
  | none =>
    rw [hl] at hstep
    dsimp only at hstep
    cases hstep
    rfl
  | some r =>
    rw [hl] at hstep
    dsimp only at hstep
    by_cases hm : findMissingFullRange st c2 = []
    · rw [if_pos hm] at hstep
      cases hstep
      rfl
    · rw [if_neg hm] at hstep
      cases hcol : collectExcept (fun n => rpc.blockByNumber c2 n) (findMissingFullRange st c2) with
      | error e =>
        rw [hcol] at hstep
        dsimp only at hstep
        cases hstep
      | ok blocks =>
        rw [hcol] at hstep
        dsimp only at hstep
        cases hstep
        refine createMany_frame c _ st ?_
        intro x hx
        obtain ⟨bb, _, hxx⟩ := List.mem_map.mp hx
        rw [← hxx]
        exact hne

theorem scan_local (rpc : RpcSpec) (st stv : List EvmBlock) (c : Nat)
    (h : chainRows stv c = chainRows st c) :
    (∀ e, scanClientTip rpc st c = .error e → scanClientTip rpc stv c = .error e) ∧
    (∀ s2, scanClientTip rpc st c = .ok s2 →
      ∃ s3, scanClientTip rpc stv c = .ok s3 ∧ chainRows s3 c = chainRows s2 c) := by
  have hlat : getLatest stv c = getLatest st c := getLatest_congr stv st c h
  have hmiss : findMissingFullRange stv c = findMissingFullRange st c :=
    findMissing_congr stv st c h
  constructor
  · intro e he
    rw [scanClientTip] at he ⊢
    rw [hlat, hmiss]
    cases hl : getLatest st c with
    | none =>
      rw [hl] at he
      dsimp only at he
      cases he
    | some r =>
      rw [hl] at he
      dsimp only at he
      dsimp only
      by_cases hm : findMissingFullRange st c = []
      · rw [if_pos hm] at he
        cases he
      · rw [if_neg hm] at he ⊢
        cases hcol : collectExcept (fun n => rpc.blockByNumber c n) (findMissingFullRange st c) with
        | error e2 =>
          rw [hcol] at he
          dsimp only at he ⊢
          exact he
        | ok blocks =>
          rw [hcol] at he
          dsimp only at he
          cases he
  · intro s2 hs2
    rw [scanClientTip] at hs2 ⊢
    rw [hlat, hmiss]
    cases hl : getLatest st c with
    | none =>
      rw [hl] at hs2
      dsimp only at hs2
      cases hs2
      exact ⟨stv, rfl, h⟩
    | some r =>
      rw [hl] at hs2
      dsimp only at hs2
      dsimp only
      by_cases hm : findMissingFullRange st c = []
      · rw [if_pos hm] at hs2 ⊢
        cases hs2
        exact ⟨stv, rfl, h⟩
      · rw [if_neg hm] at hs2 ⊢
        cases hcol : collectExcept (fun n => rpc.blockByNumber c n) (findMissingFullRange st c) with
        | error e2 =>
          rw [hcol] at hs2
          dsimp only at hs2
          cases hs2
        | ok blocks =>
          rw [hcol] at hs2
          dsimp only at hs2 ⊢
          cases hs2
          refine ⟨_, rfl, ?_⟩
          rw [upsertBlocks, upsertBlocks, createMany_proj c _ stv, createMany_proj c _ st, h]

theorem scanState_proj (rpc : RpcSpec) (c : Nat) (st : List EvmBlock) :
    ∀ (chains : List Nat) (stv : List EvmBlock), chains.Nodup → c ∈ chains →
      chainRows stv c = chainRows st c →
      chainRows (chainLoopState (scanClientTip rpc) chains stv) c
        = scanChainOutcome rpc st c := by
  intro chains
  induction chains with
  | nil => intro stv _ hc _; cases hc
  | cons c0 cs ih =>
    intro stv hnd hc hrows
    rw [chainLoopState_cons]
    by_cases hcc : c0 = c
    · subst hcc
      have hnotin : c0 ∉ cs := (List.nodup_cons.mp hnd).1
      have hlocal := scan_local rpc st stv c0 hrows
      cases hsc : scanClientTip rpc st c0 with
      | error e =>
        rw [hlocal.1 e hsc]
        dsimp only
        rw [chainLoopState_frame (scanClientTip rpc) c0
          (fun st1 c2 st2 hs hne => scan_frame rpc st1 st2 c2 c0 hs hne) cs stv hnotin]
        rw [hrows, scanChainOutcome, hsc]
      | ok s2 =>
        obtain ⟨s3, hs3, hrows3⟩ := hlocal.2 s2 hsc
        rw [hs3]
        dsimp only
        rw [chainLoopState_frame (scanClientTip rpc) c0
          (fun st1 c2 st2 hs hne => scan_frame rpc st1 st2 c2 c0 hs hne) cs s3 hnotin]
        rw [hrows3, scanChainOutcome, hsc]
    · have hc2 : c ∈ cs := (List.mem_cons.mp hc).resolve_left (fun he => hcc he.symm)
      have hnd2 : cs.Nodup := (List.nodup_cons.mp hnd).2
      rcases hstep : scanClientTip rpc stv c0 with e | st2
      · dsimp only
        exact ih stv hnd2 hc2 hrows
      · dsimp only
        exact ih st2 hnd2 hc2 ((scan_frame rpc stv st2 c0 c hstep hcc).trans hrows)

theorem scanLoop_err_mem (rpc : RpcSpec) (c : Nat) (st : List EvmBlock)
    (herr : ∀ stv, chainRows stv c = chainRows st c →
      ∃ e, scanClientTip rpc stv c = .error e) :
    ∀ (chains : List Nat) (stv : List EvmBlock) (errs : List (Nat × String)),
      c ∈ chains → chainRows stv c = chainRows st c →
      ∃ msg, (c, msg) ∈ (chains.foldl (chainStep (scanClientTip rpc)) (stv, errs)).2 := by
  intro chains
  induction chains with
  | nil => intro stv errs hc _; cases hc
  | cons c0 cs ih =>
    intro stv errs hc hrows
    rw [List.foldl_cons]
    by_cases hcc : c0 = c
    · subst hcc
      obtain ⟨e, he⟩ := herr stv hrows
      have hstep2 : chainStep (scanClientTip rpc) (stv, errs) c0 = (stv, errs ++ [(c0, e)]) := by
        rw [chainStep]
        dsimp only
        rw [he]
      rw [hstep2]
      obtain ⟨more, hmore⟩ :=
        chainLoop_errs_grow (scanClientTip rpc) cs (stv, errs ++ [(c0, e)])
      refine ⟨e, ?_⟩
      rw [hmore]
      simp
    · have hc2 : c ∈ cs := (List.mem_cons.mp hc).resolve_left (fun he => hcc he.symm)
      rcases hstep : scanClientTip rpc stv c0 with e | st2
      · have hstep2 : chainStep (scanClientTip rpc) (stv, errs) c0
            = (stv, errs ++ [(c0, e)]) := by
          rw [chainStep]
          dsimp only
          rw [hstep]
        rw [hstep2]
        exact ih stv (errs ++ [(c0, e)]) hc2 hrows
      · have hstep2 : chainStep (scanClientTip rpc) (stv, errs) c0 = (st2, errs) := by
          rw [chainStep]
          dsimp only
          rw [hstep]
        rw [hstep2]
        exact ih st2 errs hc2 ((scan_frame rpc stv st2 c0 c hstep hcc).trans hrows)

/-- Claim C5: during a gap scan, if any per-height `blockByNumber` request
for one chain rejects, no headers are upserted for that chain in that scan —
its rows are unchanged, the batch discarded as a whole — the error is
recorded with the chain id, and every other configured chain's scan still
proceeds to its own isolated outcome. -/
theorem scanTipWindows_batch_discard (rpc : RpcSpec) (chains : List Nat)
    (st : List EvmBlock) (c n : Nat) (e : String)
    (hnd : chains.Nodup) (hc : c ∈ chains)
    (hn : n ∈ findMissingFullRange st c) (hf : rpc.blockByNumber c n = .error e) :
    chainRows (scanTipWindows rpc chains st).1 c = chainRows st c ∧
    (∃ msg, (c, msg) ∈ (scanTipWindows rpc chains st).2) ∧
    (∀ c2, c2 ∈ chains → c2 ≠ c →
      chainRows (scanTipWindows rpc chains st).1 c2 = scanChainOutcome rpc st c2) := by
  have herr : ∀ stv, chainRows stv c = chainRows st c →
      ∃ e2, scanClientTip rpc stv c = .error e2 := by
    intro stv hrows
    have hmiss : findMissingFullRange stv c = findMissingFullRange st c :=
      findMissing_congr stv st c hrows
    have hmissne : findMissingFullRange stv c ≠ [] := by
      rw [hmiss]
      exact List.ne_nil_of_mem hn
    have hrowsne : chainRows stv c ≠ [] := by
      intro hnil
      exact hmissne (findMissing_of_empty stv c hnil)
    obtain ⟨r, hr⟩ := getLatest_some_of_ne stv c hrowsne
    obtain ⟨e2, hcol⟩ := collectExcept_error (fun k => rpc.blockByNumber c k)
      (findMissingFullRange stv c) ⟨n, by rw [hmiss]; exact hn, e, hf⟩
    exact ⟨e2, scan_error_of rpc stv c r e2 hr hmissne hcol⟩
  refine ⟨?_, ?_, ?_⟩
  · obtain ⟨e2, he2⟩ := herr st rfl
    rw [scanTipWindows, chainLoop, chainLoop_state_eq]
    rw [scanState_proj rpc c st chains st hnd hc rfl, scanChainOutcome, he2]
  · rw [scanTipWindows, chainLoop]
    exact scanLoop_err_mem rpc c st herr chains st [] hc rfl
  · intro c2 hc2 hne
    rw [scanTipWindows, chainLoop, chainLoop_state_eq]
    exact scanState_proj rpc c2 st chains st hnd hc2 rfl

/-- Claim C5 witness: chain 2 holds islands 2000..2005 and 2010..2015, every
block request rejects; in the scan over chains 1 and 2 no chain-2 header is
upserted, the error is recorded for chain 2, and chain 1 still reaches its
own isolated outcome. -/
theorem scanTipWindows_batch_discard_witness :
    chainRows (scanTipWindows scanFailRpc [1, 2] scanFailState).1 2
      = chainRows scanFailState 2 ∧
    (∃ msg, (2, msg) ∈ (scanTipWindows scanFailRpc [1, 2] scanFailState).2) ∧
    (∀ c2, c2 ∈ [1, 2] → c2 ≠ 2 →
      chainRows (scanTipWindows scanFailRpc [1, 2] scanFailState).1 c2
        = scanChainOutcome scanFailRpc scanFailState c2) :=
  scanTipWindows_batch_discard scanFailRpc [1, 2] scanFailState 2 2006 "Network timeout"
    (by decide) (by decide) (by decide) rfl

/-- Claim C6 counterexample: with `RPC_CHAIN_999_URL` empty, the gateway
operation `chainName(999)` does not surface ChainUnknown — it answers
"Ethereum", and the lazily created client for chain 999 carries the mainnet
chain descriptor: a silent fallback to the mainnet descriptor. -/
theorem viemRpc_no_chainUnknown_counterexample :
    getChainName emptyCfg (initClients emptyCfg) 999 = "Ethereum" ∧
    (getClient emptyCfg (initClients emptyCfg) 999).1.chain = mainnet ∧
    mainnet.name = "Ethereum" :=
  ⟨rfl, rfl, rfl⟩

/-- Claim C6 amended: for a chain N with empty `RPC_CHAIN_<N>_URL` and no
cached client, no ChainUnknown is surfaced: `getClient` silently builds and
caches a client whose chain descriptor is `viemChainById N` — the mainnet
descriptor whenever N is outside the six known ids — with the configured
(empty) URL as transport, and `chainName` reports that descriptor's name
instead of failing. -/
theorem viemRpc_fallback_amended (cfg : RpcConfig) (clients : List (Nat × ViemClient))
    (n : Nat) (hmiss : clients.lookup n = none) :
    (getClient cfg clients n).1 = ⟨viemChainById n, cfg.chainUrl n⟩ ∧
    (getClient cfg clients n).2 = clients ++ [(n, ⟨viemChainById n, cfg.chainUrl n⟩)] ∧
    getChainName cfg clients n = (viemChainById n).name ∧
    (n ∉ ([1, 10, 137, 42161, 8453, 11155111] : List Nat) → viemChainById n = mainnet) := by
  refine ⟨?_, ?_, ?_, ?_⟩
  · rw [getClient, hmiss]
  · rw [getClient, hmiss]
  · rw [getChainName, getClient, hmiss]
  · intro hn
    simp only [List.mem_cons, not_or] at hn
    obtain ⟨h1, h2, h3, h4, h5, h6, _⟩ := hn
    rw [viemChainById, if_neg h1, if_neg h2, if_neg h3, if_neg h4, if_neg h5, if_neg h6]

/-- Claim C6 amended witness: chain 999 with every chain URL empty — the
client falls back to the mainnet descriptor and `chainName` answers its
name. -/
theorem viemRpc_fallback_amended_witness :
    (getClient emptyCfg (initClients emptyCfg) 999).1
      = ⟨viemChainById 999, emptyCfg.chainUrl 999⟩ ∧
    (getClient emptyCfg (initClients emptyCfg) 999).2
      = initClients emptyCfg ++ [(999, ⟨viemChainById 999, emptyCfg.chainUrl 999⟩)] ∧
    getChainName emptyCfg (initClients emptyCfg) 999 = (viemChainById 999).name ∧
    (999 ∉ ([1, 10, 137, 42161, 8453, 11155111] : List Nat) → viemChainById 999 = mainnet) :=
  viemRpc_fallback_amended emptyCfg (initClients emptyCfg) 999 rfl

theorem digitCharVal (d : Nat) (h : d < 10) :
    (Char.ofNat (48 + d)).toNat = 48 + d ∧ isDigitChar (Char.ofNat (48 + d)) = true := by
  interval_cases d <;> exact ⟨by decide, by decide⟩

theorem natToDecimalFuel_append : ∀ (fuel n : Nat) (acc : List Char),
    natToDecimalFuel fuel n acc = natToDecimalFuel fuel n [] ++ acc := by
  intro fuel
  induction fuel with
  | zero => intro n acc; rfl
  | succ f ih =>
    intro n acc
    by_cases h : n < 10
    · simp only [natToDecimalFuel, if_pos h]
      rfl
    · simp only [natToDecimalFuel, if_neg h]
      rw [ih (n / 10) (Char.ofNat (48 + n % 10) :: acc), ih (n / 10) [Char.ofNat (48 + n % 10)]]
      simp

theorem natToDecimalFuel_all_digits : ∀ (fuel n : Nat) (acc : List Char),
    acc.all isDigitChar = true → (natToDecimalFuel fuel n acc).all isDigitChar = true := by
  intro fuel
  induction fuel with
  | zero => intro n acc hacc; exact hacc
  | succ f ih =>
    intro n acc hacc
    have hd : isDigitChar (Char.ofNat (48 + n % 10)) = true :=
      (digitCharVal (n % 10) (Nat.mod_lt _ (by omega))).2
    by_cases h : n < 10
    · simp only [natToDecimalFuel, if_pos h, List.all_cons, hd, hacc]
      rfl
    · simp only [natToDecimalFuel, if_neg h]
      exact ih (n / 10) _ (by simp [List.all_cons, hd, hacc])

theorem natToDecimalFuel_value : ∀ (fuel n : Nat), n < 10 ^ fuel →
    ∀ (a : Nat),
      List.foldl (fun a c => a * 10 + (c.toNat - 48)) a (natToDecimalFuel fuel n [])
        = a * 10 ^ (natToDecimalFuel fuel n []).length + n := by
  intro fuel
  induction fuel with
  | zero =>
    intro n hn a
    have hz : n = 0 := by
      have : (10 : Nat) ^ 0 = 1 := pow_zero 10
      omega
    subst hz
    simp [natToDecimalFuel]
  | succ f ih =>
    intro n hn a
    by_cases h : n < 10
    · simp only [natToDecimalFuel, if_pos h]
      have hd := (digitCharVal (n % 10) (by omega)).1
      simp only [List.foldl_cons, List.foldl_nil, List.length_cons, List.length_nil, hd]
      rw [Nat.mod_eq_of_lt h, pow_one]
      omega
    · simp only [natToDecimalFuel, if_neg h]
      rw [natToDecimalFuel_append]
      have hlt : n / 10 < 10 ^ f := by
        rw [pow_succ] at hn
        omega
      rw [List.foldl_append, ih (n / 10) hlt a]
      have hd := (digitCharVal (n % 10) (by omega)).1
      simp only [List.foldl_cons, List.foldl_nil, List.length_append, List.length_cons,
        List.length_nil, hd]
      rw [pow_succ]
      have h10 : n / 10 * 10 + n % 10 = n := by omega
      have hsub : 48 + n % 10 - 48 = n % 10 := by omega
      rw [hsub]
      calc (a * 10 ^ (natToDecimalFuel f (n / 10) []).length + n / 10) * 10 + n % 10
          = a * (10 ^ (natToDecimalFuel f (n / 10) []).length * 10)
              + (n / 10 * 10 + n % 10) := by ring
        _ = a * (10 ^ (natToDecimalFuel f (n / 10) []).length * 10) + n := by rw [h10]

theorem digitsToNat_natToDecimal (n : Nat) : digitsToNat (natToDecimal n) = n := by
  have hfuel : n < 10 ^ (n + 1) := by
    have h1 : n < 10 ^ n := Nat.lt_pow_self (by omega) n
    have h2 : (10 : Nat) ^ n ≤ 10 ^ (n + 1) := Nat.pow_le_pow_right (by omega) (by omega)
    omega
  have := natToDecimalFuel_value (n + 1) n hfuel 0
  simpa [digitsToNat, natToDecimal] using this

theorem natToDecimal_all_digits (n : Nat) : (natToDecimal n).all isDigitChar = true :=
  natToDecimalFuel_all_digits (n + 1) n [] rfl

theorem natToDecimal_ne_nil (n : Nat) : natToDecimal n ≠ [] := by
  rw [natToDecimal]
  by_cases h : n < 10
  · simp only [natToDecimalFuel, if_pos h]
    exact List.cons_ne_nil _ _
  · simp only [natToDecimalFuel, if_neg h]
    rw [natToDecimalFuel_append]
    intro hcon
    exact absurd (List.append_eq_nil.mp hcon).2 (List.cons_ne_nil _ _)

theorem parseIntPipe_digits (l : List Char) (hne : l ≠ []) (hall : l.all isDigitChar = true) :
    parseIntPipe ⟨l⟩ = some ((float64Round (digitsToNat l) : Int)) := by
  cases l with
  | nil => exact absurd rfl hne
  | cons c cs =>
    have hc : ¬ c = '-' := by
      intro he
      subst he
      rw [List.all_cons, show isDigitChar '-' = false from by decide] at hall
      simp at hall
    rw [parseIntPipe]
    dsimp only
    rw [if_neg hc, if_pos hall]

theorem byNumberRoute_bad1 (st : List EvmBlock) (p1 p2 : String)
    (h : parseIntPipe p1 = none) : byNumberRoute st p1 p2 = HttpResponse.badRequest := by
  rw [byNumberRoute, h]
  cases parseIntPipe p2 <;> rfl

theorem byNumberRoute_bad2 (st : List EvmBlock) (p1 p2 : String)
    (h : parseIntPipe p2 = none) : byNumberRoute st p1 p2 = HttpResponse.badRequest := by
  rw [byNumberRoute, h]
  cases parseIntPipe p1 <;> rfl

/-- Claim C7: the latest and by-number routes answer 200 with a body of
exactly the four fields `number, hash, parentHash, timestamp` — heights and
timestamps as decimal strings — when the record exists; 200 with the
`error: Not found` sentinel (never 404) when it does not; and 400 when a
path parameter is not an integer. -/
theorem evmBlocks_read_shape (st : List EvmBlock) (p1 p2 : String) :
    (parseIntPipe p1 = none →
      latestRoute st p1 = HttpResponse.badRequest ∧
      byNumberRoute st p1 p2 = HttpResponse.badRequest) ∧
    (parseIntPipe p2 = none → byNumberRoute st p1 p2 = HttpResponse.badRequest) ∧
    (∀ c, parseIntPipe p1 = some c →
      (getLatestZ st c = none →
        latestRoute st p1 = HttpResponse.ok (HttpBody.errorNotFound "Not found")) ∧
      (∀ r, getLatestZ st c = some r →
        latestRoute st p1 = HttpResponse.ok (HttpBody.block (toEvmBlockDto r)))) ∧
    (∀ c n, parseIntPipe p1 = some c → parseIntPipe p2 = some n →
      (byNumberZ st c n = none →
        byNumberRoute st p1 p2 = HttpResponse.ok (HttpBody.errorNotFound "Not found")) ∧
      (∀ r, byNumberZ st c n = some r →
        byNumberRoute st p1 p2 = HttpResponse.ok (HttpBody.block (toEvmBlockDto r)))) ∧
    latestRoute st p1 ≠ HttpResponse.notFound404 ∧
    byNumberRoute st p1 p2 ≠ HttpResponse.notFound404 ∧
    (∀ b : EvmBlock,
      toEvmBlockDto b
        = ⟨⟨natToDecimal b.number⟩, b.hash, b.parentHash, ⟨natToDecimal b.timestamp⟩⟩ ∧
      digitsToNat (toEvmBlockDto b).number.data = b.number ∧
      digitsToNat (toEvmBlockDto b).timestamp.data = b.timestamp ∧
      (toEvmBlockDto b).number.data.all isDigitChar = true ∧
      (toEvmBlockDto b).timestamp.data.all isDigitChar = true) := by
  refine ⟨?_, ?_, ?_, ?_, ?_, ?_, ?_⟩
  · intro h
    exact ⟨by rw [latestRoute, h], byNumberRoute_bad1 st p1 p2 h⟩
  · exact byNumberRoute_bad2 st p1 p2
  · intro c hc
    constructor
    · intro hg
      rw [latestRoute, hc]
      dsimp only
      rw [hg]
    · intro r hg
      rw [latestRoute, hc]
      dsimp only
      rw [hg]
  · intro c n hc hn
    constructor
    · intro hg
      rw [byNumberRoute, hc, hn]
      dsimp only
      rw [hg]
    · intro r hg
      rw [byNumberRoute, hc, hn]
      dsimp only
      rw [hg]
  · rw [latestRoute]
    cases hp : parseIntPipe p1 with
    | none => intro hcon; cases hcon
    | some c =>
      dsimp only
      cases hg : getLatestZ st c <;> (intro hcon; cases hcon)
  · rw [byNumberRoute]
    cases hp1 : parseIntPipe p1 with
    | none =>
      cases hp2 : parseIntPipe p2 <;> (intro hcon; cases hcon)
    | some c =>
      cases hp2 : parseIntPipe p2 with
      | none => intro hcon; cases hcon
      | some n =>
        dsimp only
        cases hg : byNumberZ st c n <;> (intro hcon; cases hcon)
  · intro b
    exact ⟨rfl, digitsToNat_natToDecimal b.number, digitsToNat_natToDecimal b.timestamp,
      natToDecimal_all_digits b.number, natToDecimal_all_digits b.timestamp⟩

/-- Claim C9 counterexample: at `2^53 + 1 = 9007199254740993` the pipeline is
not 64-bit exact — the watcher's `Number(b.timestamp)` stores
`9007199254740992`, and ParseIntPipe parses the path string
"9007199254740993" to `9007199254740992`. -/
theorem ingest_float_truncation_counterexample :
    (tickRow 1 { number := 100, hash := "0xa", parentHash := "0xb",
                 timestamp := 9007199254740993 }).timestamp = 9007199254740992 ∧
    parseIntPipe "9007199254740993" = some (9007199254740992 : Int) ∧
    (9007199254740992 : Nat) ≠ (9007199254740993 : Nat) :=
  ⟨by decide, by decide, by decide⟩

/-- Claim C9 amended: block heights and timestamps are carried as bigints in
the store and serialized as exact decimal strings, but the watcher's
`Number(timestamp)` coercion and the by-number route's ParseIntPipe pass
through 64-bit floats, so values are carried exactly only up to `2^53` —
far beyond the 32-bit range (for example 999999999999999), but not with full
64-bit precision. -/
theorem numeric_precision_amended (n : Nat) (b : EvmBlock) (hn : n ≤ 2 ^ 53) :
    float64Round n = n ∧
    parseIntPipe ⟨natToDecimal n⟩ = some ((n : Nat) : Int) ∧
    digitsToNat (toEvmBlockDto b).number.data = b.number ∧
    digitsToNat (toEvmBlockDto b).timestamp.data = b.timestamp := by
  have hr : float64Round n = n := by rw [float64Round, if_pos hn]
  refine ⟨hr, ?_, digitsToNat_natToDecimal b.number, digitsToNat_natToDecimal b.timestamp⟩
  rw [parseIntPipe_digits (natToDecimal n) (natToDecimal_ne_nil n) (natToDecimal_all_digits n)]
  rw [digitsToNat_natToDecimal, hr]

/-- Claim C9 amended witness: the 50-bit height 999999999999999 of the e2e
test is carried exactly through Number, ParseIntPipe and the decimal
serialization. -/
theorem numeric_precision_amended_witness :
    float64Round 999999999999999 = 999999999999999 ∧
    parseIntPipe ⟨natToDecimal 999999999999999⟩ = some ((999999999999999 : Nat) : Int) ∧
    digitsToNat (toEvmBlockDto ⟨1, 999999999999999, "0xa", "0xb", 1700000000⟩).number.data
      = 999999999999999 ∧
    digitsToNat (toEvmBlockDto ⟨1, 999999999999999, "0xa", "0xb", 1700000000⟩).timestamp.data
      = 1700000000 :=
  numeric_precision_amended 999999999999999 ⟨1, 999999999999999, "0xa", "0xb", 1700000000⟩
    (by decide)

theorem dropExact_succ_cons (n : Nat) (p : Char → Bool) (ch : Char) (cs : List Char) :
    dropExact (n + 1) p (ch :: cs) = if p ch then dropExact n p cs else none := rfl

theorem dropExact_full : ∀ (l : List Char) (p : Char → Bool), l.all p = true →
    dropExact l.length p l = some [] := by
  intro l
  induction l with
  | nil => intro p _; rfl
  | cons c cs ih =>
    intro p hall
    rw [List.all_cons, Bool.and_eq_true] at hall
    rw [List.length_cons, dropExact_succ_cons, if_pos hall.1]
    exact ih p hall.2

theorem uuidMatch_colon (xs : List Char) : uuidMatch (':' :: xs) = none := rfl

theorem ruleUuid_colon (xs : List Char) : ruleUuid (':' :: xs) = ':' :: xs := rfl

theorem hex0xMatch_colon (xs : List Char) : hex0xMatch (':' :: xs) = none := by
  cases xs with
  | nil => rfl
  | cons x rest =>
    cases rest with
    | nil => rfl
    | cons c cs => rfl

theorem ruleHex0x_colon (xs : List Char) : ruleHex0x (':' :: xs) = ':' :: xs := by
  rw [ruleHex0x, hex0xMatch_colon]

theorem rule64_colon (xs : List Char) : rule64 (':' :: xs) = ':' :: xs := rfl

theorem rule40_colon (xs : List Char) : rule40 (':' :: xs) = ':' :: xs := rfl

theorem ruleNum_colon (xs : List Char) : ruleNum (':' :: xs) = ':' :: xs := rfl

theorem restRules_colon (xs : List Char) :
    ruleNum (rule40 (rule64 (ruleHex0x (':' :: xs)))) = ':' :: xs := by
  rw [ruleHex0x_colon, rule64_colon, rule40_colon, ruleNum_colon]

theorem isHex0xSeg_colon (xs : List Char) : isHex0xSeg (':' :: xs) = false := by
  cases xs with
  | nil => rfl
  | cons x rest => rfl

theorem bannedSeg_colon (xs : List Char) : bannedSeg (':' :: xs) = false := by
  rw [bannedSeg, isHex0xSeg_colon]
  rfl

theorem hex0x_of_seg : ∀ (s : List Char), isHex0xSeg s = true → ∃ r, hex0xMatch s = some r := by
  intro s h
  cases s with
  | nil => exact absurd h (by decide)
  | cons c0 s1 =>
    cases s1 with
    | nil =>
      rw [show isHex0xSeg [c0] = false from rfl] at h
      exact Bool.noConfusion h
    | cons x rest =>
      simp only [isHex0xSeg, Bool.and_eq_true, Bool.or_eq_true, beq_iff_eq,
        Bool.not_eq_true'] at h
      obtain ⟨⟨⟨h0, hx⟩, hne⟩, hall⟩ := h
      subst h0
      cases rest with
      | nil => simp at hne
      | cons c cs =>
        rw [List.all_cons, Bool.and_eq_true] at hall
        refine ⟨(c :: cs).dropWhile isHexChar, ?_⟩
        rw [show hex0xMatch ('0' :: x :: c :: cs)
            = if ('0' == '0' && (x == 'x' || x == 'X') && isHexChar c) then
                some ((c :: cs).dropWhile isHexChar)
              else none from rfl]
        have hx2 : (x == 'x' || x == 'X') = true := by
          rcases hx with rfl | rfl <;> rfl
        have hcond : ('0' == '0' && (x == 'x' || x == 'X') && isHexChar c) = true := by
          rw [hx2, hall.1]
          rfl
        rw [if_pos hcond]

theorem normalizeSegment_unbanned (s : List Char) : bannedSeg (normalizeSegment s) = false := by
  rw [normalizeSegment]
  cases hu : uuidMatch s with
  | some rest =>
    rw [ruleUuid, hu]
    dsimp only
    rw [restRules_colon]
    exact bannedSeg_colon _
  | none =>
    rw [ruleUuid, hu]
    dsimp only
    cases hx : hex0xMatch s with
    | some rest =>
      rw [ruleHex0x, hx]
      dsimp only
      rw [rule64_colon, rule40_colon, ruleNum_colon]
      exact bannedSeg_colon _
    | none =>
      rw [ruleHex0x, hx]
      dsimp only
      cases h64 : dropExact 64 isHexChar s with
      | some rest =>
        rw [rule64, h64]
        dsimp only
        rw [rule40_colon, ruleNum_colon]
        exact bannedSeg_colon _
      | none =>
        rw [rule64, h64]
        dsimp only
        cases h40 : dropExact 40 isHexChar s with
        | some rest =>
          rw [rule40, h40]
          dsimp only
          rw [ruleNum_colon]
          exact bannedSeg_colon _
        | none =>
          rw [rule40, h40]
          dsimp only
          cases s with
          | nil => rfl
          | cons c cs =>
            by_cases hd : isDigitChar c = true
            · rw [ruleNum]
              rw [if_pos hd]
              exact bannedSeg_colon _
            · rw [ruleNum]
              rw [if_neg hd]
              cases hb : bannedSeg (c :: cs) with
              | false => rfl
              | true =>
                exfalso
                simp only [bannedSeg, Bool.or_eq_true] at hb
                rcases hb with ((((h1 | h2) | h3) | h4) | h5)
                · rw [isDigitOnlySeg, Bool.and_eq_true, List.all_cons,
                    Bool.and_eq_true] at h1
                  exact hd h1.2.1
                · rw [isHex40Seg, Bool.and_eq_true, beq_iff_eq] at h2
                  rw [← h2.2] at h40
                  rw [dropExact_full _ _ h2.1] at h40
                  exact Option.noConfusion h40
                · rw [isHex64Seg, Bool.and_eq_true, beq_iff_eq] at h3
                  rw [← h3.2] at h64
                  rw [dropExact_full _ _ h3.1] at h64
                  exact Option.noConfusion h64
                · obtain ⟨r, hr⟩ := hex0x_of_seg (c :: cs) h4
                  rw [hr] at hx
                  exact Option.noConfusion hx
                · rw [isUuidSeg] at h5
                  rw [eq_of_beq h5] at hu
                  exact Option.noConfusion hu

/-- Claim C8: after `MetricsService.normalizeRoute` — applied
most-specific-first (UUID, then `0x`-hex, then 64-hex, then 40-hex, then
decimal), each pattern anchored at a segment boundary by its leading
escaped slash — no segment of the recorded route label is digit-only,
40-hex, 64-hex, `0x`-prefixed hex, or a UUID. -/
theorem normalizeRoute_no_raw_ids (segs : List (List Char)) (s : List Char)
    (hs : s ∈ normalizeRoute segs) : bannedSeg s = false := by
  rw [normalizeRoute] at hs
  by_cases he : segs.isEmpty
  · rw [if_pos he] at hs
    rw [List.mem_singleton.mp hs]
    decide
  · rw [if_neg he] at hs
    obtain ⟨t, _, rfl⟩ := List.mem_map.mp hs
    exact normalizeSegment_unbanned t

/-- Claim C8 witness: the path `/evm/blocks/123` has its digit-only segment
rewritten to `:id`, which is in none of the banned classes. -/
theorem normalizeRoute_no_raw_ids_witness : bannedSeg [':', 'i', 'd'] = false :=
  normalizeRoute_no_raw_ids
    [['e', 'v', 'm'], ['b', 'l', 'o', 'c', 'k', 's'], ['1', '2', '3']]
    [':', 'i', 'd'] (by decide)
